import Mathlib

/-!
Verification of the text-buffer and completion core (`document.rs`,
`completion.rs`) of the rusty-prompt repository.  Strings are embedded as
lists of Unicode scalar values; byte-based quantities of the source
(`str::len`, `str::rfind`, byte slicing) are recovered through the UTF-8
size of each scalar value.  Fallible operations (Rust panics) are embedded
as `Option`, with `none` for a panic.
-/

namespace RustyPrompt

/-- UTF-8 byte count of a string given as its list of scalar values
(`str::len` in the source counts bytes). -/
def utf8Len (s : List Char) : Nat := (s.map Char.utf8Size).sum

/-! ## Document (document.rs) -/

/-- `Document { text, cursor_position }`.  The `last_key` field of the
source is external key plumbing never read by any query modelled here. -/
structure Document where
  text : List Char
  cursor_position : Int

/-- `str::split('\n')`: segments of the text between newline characters;
always at least one segment, a trailing newline yields a final empty one. -/
def splitLines : List Char → List (List Char)
  | [] => [[]]
  | c :: cs =>
    if c = '\n' then [] :: splitLines cs
    else
      match splitLines cs with
      | [] => [[c]]
      | l :: ls => (c :: l) :: ls

/-- `Document::lines`. -/
def Document.lines (d : Document) : List (List Char) := splitLines d.text

/-- `Document::line_count`. -/
def Document.line_count (d : Document) : Nat := d.lines.length

/-- The loop of `Document::line_start_indexes`: starting from a running
position, each line contributes `pos += l + 1; indexes.push(pos)`. -/
def buildIndexes : Nat → List Nat → List Nat
  | _, [] => []
  | pos, l :: ls => (pos + l + 1) :: buildIndexes (pos + l + 1) ls

/-- `Document::line_start_indexes`: `[0]` followed by the running offsets,
popping the synthetic final entry when more than one line exists. -/
def Document.line_start_indexes (d : Document) : List Nat :=
  let lc := d.line_count
  let lengths := d.lines.map utf8Len
  let indexes := 0 :: buildIndexes 0 lengths
  if lc > 1 then indexes.dropLast else indexes

/-- `bisect::right`, i.e. `slice::partition_point(|probe| probe <= v)`:
for a partitioned slice (every table it is applied to here is strictly
increasing) this is the index of the first element exceeding `v`. -/
def bisectRight (a : List Nat) (v : Nat) : Nat :=
  (a.takeWhile (fun probe => probe ≤ v)).length

/-- `Document::find_line_start_index`.  The source indexes `indexes[pos]`;
`pos` is always in bounds because the table starts with `0`, so `getD`
with an arbitrary default is a faithful rendering. -/
def Document.find_line_start_index (d : Document) (index : Nat) : Nat × Nat :=
  let indexes := d.line_start_indexes
  let pos := bisectRight indexes index - 1
  (pos, indexes.getD pos 0)

/-- `Document::text_before_cursor` (`chars().take(cursor)`). -/
def Document.text_before_cursor (d : Document) : List Char :=
  d.text.take d.cursor_position.toNat

/-- `Document::text_after_cursor` (`chars().skip(cursor)`). -/
def Document.text_after_cursor (d : Document) : List Char :=
  d.text.drop d.cursor_position.toNat

/-- `Document::current_line_before_cursor`
(`text_before_cursor().split('\n').last()`). -/
def Document.current_line_before_cursor (d : Document) : List Char :=
  (splitLines d.text_before_cursor).getLastD []

/-- `Document::current_line_after_cursor`
(`text_after_cursor().split('\n').take(1)`). -/
def Document.current_line_after_cursor (d : Document) : List Char :=
  d.text_after_cursor.takeWhile (fun c => c ≠ '\n')

/-- `Document::current_line`. -/
def Document.current_line (d : Document) : List Char :=
  d.current_line_before_cursor ++ d.current_line_after_cursor

/-- `char::is_whitespace`: the Unicode White_Space property, used by
`str::trim`. -/
def isRustWhitespace (c : Char) : Bool :=
  [0x09, 0x0A, 0x0B, 0x0C, 0x0D, 0x20, 0x85, 0xA0, 0x1680,
   0x2000, 0x2001, 0x2002, 0x2003, 0x2004, 0x2005, 0x2006, 0x2007,
   0x2008, 0x2009, 0x200A, 0x2028, 0x2029, 0x202F, 0x205F, 0x3000].contains c.toNat

/-- `str::trim`: drop White_Space scalar values from both ends. -/
def rustTrim (s : List Char) : List Char :=
  ((s.dropWhile isRustWhitespace).reverse.dropWhile isRustWhitespace).reverse

/-- Take exactly `n` UTF-8 bytes from the front of a string.  `none` when
`n` overruns the string or falls inside a multi-byte scalar value — the
cases in which the source's byte slicing `s[..n]` / `String::truncate(n)`
panics on a non-boundary index. -/
def takeBytes : List Char → Nat → Option (List Char)
  | _, 0 => some []
  | [], _ + 1 => none
  | c :: cs, n + 1 =>
    if c.utf8Size ≤ n + 1 then (takeBytes cs (n + 1 - c.utf8Size)).map (c :: ·)
    else none

/-- `Document::leading_whitespace_in_current_line`: byte-slice the current
line at the byte count trimmed from it; `none` when the slice panics. -/
def Document.leading_whitespace_in_current_line (d : Document) : Option (List Char) :=
  let trimmed := d.current_line
  let idx := utf8Len d.current_line - utf8Len (rustTrim trimmed)
  takeBytes d.current_line idx

/-- The walk of `Document::get_char_relative_to_cursor`: step through the
scalar values incrementing `count` from 0, returning the value at which
`count` hits `target`, or `char::default()` (U+0000) past the end. -/
def charLoop : List Char → Int → Int → Char
  | [], _, _ => Char.ofNat 0
  | c :: rest, count, target =>
    if count + 1 = target then c else charLoop rest (count + 1) target

/-- `Document::get_char_relative_to_cursor`. -/
def Document.get_char_relative_to_cursor (d : Document) (offset : Int) : Char :=
  charLoop d.text 0 (d.cursor_position + offset)

/-- `str::rfind(' ')`: UTF-8 byte index of the last space, if any. -/
def rfindSpace : List Char → Option Nat
  | [] => none
  | c :: cs =>
    match rfindSpace cs with
    | some i => some (c.utf8Size + i)
    | none => if c = ' ' then some 0 else none

/-- `Document::find_start_of_previous_word`. -/
def Document.find_start_of_previous_word (d : Document) : Int :=
  match rfindSpace d.text_before_cursor with
  | some i => (i : Int) + 1
  | none => 0

/-- `Document::translate_row_col_to_index`; `none` when the source panics
(`lines.get(row)` out of range). -/
def Document.translate_row_col_to_index (d : Document) (row column : Nat) : Option Nat :=
  let indexes := d.line_start_indexes
  let row := min row (indexes.length - 1)
  match d.lines.get? row with
  | none => none
  | some line =>
    let r :=
      if column > 0 ∨ line ≠ [] then
        if column > utf8Len line then indexes.getD row 0 + utf8Len line
        else indexes.getD row 0 + column
      else indexes.getD row 0
    some (min r (utf8Len d.text))

/-- `Document::translate_index_to_position`. -/
def Document.translate_index_to_position (d : Document) (index : Nat) : Nat × Nat :=
  let p := d.find_line_start_index index
  (p.1, index - p.2)

/-! ## Completion (completion.rs) -/

/-- `Suggestion { text, description }`. -/
structure Suggestion where
  text : List Char
  description : List Char
deriving DecidableEq

/-- `CompletionManager`.  The completion source (`completer`, the trait
object) is passed to each operation as a function; the unused
`word_separator` / `show_at_start` fields are omitted. -/
structure CompletionManager where
  selected : Int
  tmp : List Suggestion
  max : Nat
  vertical_scroll : Int
deriving DecidableEq

/-- `CompletionManager::reset` (also re-issues `update_suggestions("")`,
replacing the candidates by the completion source's answer to `""`). -/
def CompletionManager.reset (c : List Char → List Suggestion)
    (s : CompletionManager) : CompletionManager :=
  { s with selected := -1, vertical_scroll := 0, tmp := c [] }

/-- `CompletionManager::update`. -/
def CompletionManager.update (c : List Char → List Suggestion)
    (s : CompletionManager) : CompletionManager :=
  let m := min s.max s.tmp.length
  if s.selected > -1 ∧ (s.tmp.length : Int) ≤ s.selected then s.reset c
  else if s.selected < -1 then
    { s with selected := (s.tmp.length : Int) - 1,
             vertical_scroll := ((s.tmp.length - m : Nat) : Int) }
  else s

/-- `CompletionManager::previous`. -/
def CompletionManager.previous (c : List Char → List Suggestion)
    (s : CompletionManager) : CompletionManager :=
  let s :=
    if s.vertical_scroll = s.selected ∧ s.selected > 0 then
      { s with vertical_scroll := s.vertical_scroll - 1 }
    else s
  CompletionManager.update c { s with selected := s.selected - 1 }

/-- `CompletionManager::next`. -/
def CompletionManager.next (c : List Char → List Suggestion)
    (s : CompletionManager) : CompletionManager :=
  let s :=
    if s.vertical_scroll + (s.max : Int) - 1 = s.selected then
      { s with vertical_scroll := s.vertical_scroll + 1 }
    else s
  CompletionManager.update c { s with selected := s.selected + 1 }

/-- `SHORTEN_SUFFIX`. -/
def SHORTEN_SUFFIX : List Char := "...".toList

/-- `LEFT_PREFIX` (a single space). -/
def leftPre : List Char := [' ']

/-- `LEFT_SUFFIX`. -/
def leftSuf : List Char := [' ']

/-- `RIGHT_PREFIX`. -/
def rightPre : List Char := [' ']

/-- `RIGHT_SUFFIX`. -/
def rightSuf : List Char := [' ']

/-- `delete_break_line_characters`: `replace("\n", "")` then
`replace("\r", "")`. -/
def delete_break_line_characters (s : List Char) : List Char :=
  s.filter (fun c => c ≠ '\n' && c ≠ '\r')

/-- The per-entry body of the `format_texts` loop.  `none` renders the
panics of the source: the `width - SHORTEN_SUFFIX.len()` underflow and a
`String::truncate` landing inside a multi-byte scalar value. -/
def formatEntry (width lenShorten : Nat) (pre suf : List Char)
    (i : List Char) : Option (List Char) :=
  let x := utf8Len i
  if x ≤ width then
    some (pre ++ i ++ List.replicate (width - x) ' ' ++ suf)
  else
    if width < lenShorten then none
    else
      match takeBytes i (width - lenShorten) with
      | none => none
      | some t =>
        let x := t ++ SHORTEN_SUFFIX
        let x :=
          if utf8Len x < width then
            x ++ List.replicate (width - utf8Len x - x.length) ' '
          else x
        some (pre ++ x ++ suf)

/-- `format_texts`. -/
def format_texts (o : List (List Char)) (max : Nat) (pre suf : List Char) :
    Option (List (List Char) × Nat) :=
  let lenPre := utf8Len pre
  let lenSuf := utf8Len suf
  let lenShorten := utf8Len SHORTEN_SUFFIX
  let minRequired := lenPre + lenSuf + lenShorten
  let width := (o.map (fun s => utf8Len (delete_break_line_characters s))).foldr Nat.max 0
  if width = 0 then some (o.map (fun _ => []), width)
  else if minRequired ≥ max then some (o.map (fun _ => []), 0)
  else
    let width := if lenPre + width + lenSuf > max then max - lenPre - lenSuf else width
    match o.mapM (formatEntry width lenShorten pre suf) with
    | none => none
    | some n => some (n, lenPre + width + lenSuf)

/-- `format_suggestions`. -/
def format_suggestions (suggestions : List Suggestion) (max : Nat) :
    Option (List Suggestion × Nat) :=
  let left := suggestions.map Suggestion.text
  let right := suggestions.map Suggestion.description
  match format_texts left max leftPre leftSuf with
  | none => none
  | some (left, left_width) =>
    if left_width = 0 then some ([], 0)
    else
      match
        (if max > left_width then
          format_texts right (max - left_width) rightPre rightSuf
        else some (right.map (fun _ => []), 0)) with
      | none => none
      | some (right, right_width) =>
        some ((left.zip right).map (fun p => Suggestion.mk p.1 p.2),
              left_width + right_width)

/-! ## Session invariants and operation sequences -/

/-- The completion-session invariant exactly as claimed: idle
(`selected = -1`), or a selection inside the candidate range with the
scroll window around it. -/
def claimInvC6 (s : CompletionManager) : Prop :=
  s.selected = -1 ∨
  (0 ≤ s.selected ∧ s.selected < (s.tmp.length : Int) ∧
    0 ≤ s.vertical_scroll ∧ s.vertical_scroll ≤ s.selected ∧
    s.selected ≤ s.vertical_scroll + ((min s.max s.tmp.length : Nat) : Int) - 1)

/-- The invariant the code actually preserves: as above, but an idle
session also has `vertical_scroll = 0`. -/
def sessionInv (s : CompletionManager) : Prop :=
  (s.selected = -1 ∧ s.vertical_scroll = 0) ∨
  (0 ≤ s.selected ∧ s.selected < (s.tmp.length : Int) ∧
    0 ≤ s.vertical_scroll ∧ s.vertical_scroll ≤ s.selected ∧
    s.selected ≤ s.vertical_scroll + ((min s.max s.tmp.length : Nat) : Int) - 1)

instance (s : CompletionManager) : Decidable (claimInvC6 s) := by
  unfold claimInvC6; infer_instance

instance (s : CompletionManager) : Decidable (sessionInv s) := by
  unfold sessionInv; infer_instance

/-- The three session operations a user can drive. -/
inductive CMOp where
  | previousOp : CMOp
  | nextOp : CMOp
  | resetOp : CMOp
deriving DecidableEq

/-- Apply one session operation. -/
def applyOp (c : List Char → List Suggestion) (s : CompletionManager) :
    CMOp → CompletionManager
  | CMOp.previousOp => s.previous c
  | CMOp.nextOp => s.next c
  | CMOp.resetOp => s.reset c

/-- Apply a sequence of session operations in order. -/
def applyOps (c : List Char → List Suggestion) (s : CompletionManager) :
    List CMOp → CompletionManager
  | [] => s
  | op :: ops => applyOps c (applyOp c s op) ops

/-- Modelled from the spec: `find_start_of_previous_word` as the spec
words it — the count of *scalar values* of `textBeforeCursor()` up to
just after the last plain space, or 0 (the glossary fixes scalar values,
not bytes, as the cursor unit).  Kept only to compare against the
byte-based `Document.find_start_of_previous_word` of the source. -/
def rfindSpaceScalar : List Char → Option Nat
  | [] => none
  | c :: cs =>
    match rfindSpaceScalar cs with
    | some i => some (i + 1)
    | none => if c = ' ' then some 0 else none

/-- Modelled from the spec: scalar-value variant of
`Document.find_start_of_previous_word` (see `rfindSpaceScalar`). -/
def Document.find_start_of_previous_word_scalars (d : Document) : Int :=
  match rfindSpaceScalar d.text_before_cursor with
  | some i => (i : Int) + 1
  | none => 0

/-! ## Theorems -/

/-- C1, counterexample: over 6 candidates with `windowSize = 3`, six calls
to `next()` starting from the idle state do NOT return the session to
idle: they leave it completing with `selectedIndex = 5`. -/
theorem c1_counterexample :
    (CompletionManager.next (fun _ => List.replicate 6 ⟨[], []⟩)
      (CompletionManager.next (fun _ => List.replicate 6 ⟨[], []⟩)
        (CompletionManager.next (fun _ => List.replicate 6 ⟨[], []⟩)
          (CompletionManager.next (fun _ => List.replicate 6 ⟨[], []⟩)
            (CompletionManager.next (fun _ => List.replicate 6 ⟨[], []⟩)
              (CompletionManager.next (fun _ => List.replicate 6 ⟨[], []⟩)
                ⟨-1, List.replicate 6 ⟨[], []⟩, 3, 0⟩)))))).selected = 5 ∧
    (CompletionManager.next (fun _ => List.replicate 6 ⟨[], []⟩)
      (CompletionManager.next (fun _ => List.replicate 6 ⟨[], []⟩)
        (CompletionManager.next (fun _ => List.replicate 6 ⟨[], []⟩)
          (CompletionManager.next (fun _ => List.replicate 6 ⟨[], []⟩)
            (CompletionManager.next (fun _ => List.replicate 6 ⟨[], []⟩)
              (CompletionManager.next (fun _ => List.replicate 6 ⟨[], []⟩)
                ⟨-1, List.replicate 6 ⟨[], []⟩, 3, 0⟩)))))).selected ≠ -1 := by
  decide

/-- C1, amended: over 6 candidates with `windowSize = 3`, starting idle,
one `previous()` yields `selectedIndex = 5` with `scrollOffset = 3`; six
`next()` calls from idle yield `selectedIndex = 5` with
`scrollOffset = 3`, and a seventh returns the session to idle
(`selectedIndex = -1`, `scrollOffset = 0`). -/
theorem c1_amended :
    ((CompletionManager.previous (fun _ => List.replicate 6 ⟨[], []⟩)
        ⟨-1, List.replicate 6 ⟨[], []⟩, 3, 0⟩).selected = 5 ∧
      (CompletionManager.previous (fun _ => List.replicate 6 ⟨[], []⟩)
        ⟨-1, List.replicate 6 ⟨[], []⟩, 3, 0⟩).vertical_scroll = 3) ∧
    (applyOps (fun _ => List.replicate 6 ⟨[], []⟩)
        ⟨-1, List.replicate 6 ⟨[], []⟩, 3, 0⟩
        (List.replicate 6 CMOp.nextOp)).selected = 5 ∧
    (applyOps (fun _ => List.replicate 6 ⟨[], []⟩)
        ⟨-1, List.replicate 6 ⟨[], []⟩, 3, 0⟩
        (List.replicate 6 CMOp.nextOp)).vertical_scroll = 3 ∧
    (applyOps (fun _ => List.replicate 6 ⟨[], []⟩)
        ⟨-1, List.replicate 6 ⟨[], []⟩, 3, 0⟩
        (List.replicate 7 CMOp.nextOp)).selected = -1 ∧
    (applyOps (fun _ => List.replicate 6 ⟨[], []⟩)
        ⟨-1, List.replicate 6 ⟨[], []⟩, 3, 0⟩
        (List.replicate 7 CMOp.nextOp)).vertical_scroll = 0 := by
  decide

/-- C2, counterexample: on the document `"ab"` with `cursorOffset = 0`,
`charRelativeToCursor(1)` returns `'a'` — the scalar value at 0-based
index `cursorOffset + offset - 1 = 0`, not the claimed index
`cursorOffset + offset = 1` (which holds `'b'`). -/
theorem c2_counterexample :
    Document.get_char_relative_to_cursor ⟨['a', 'b'], 0⟩ 1 = 'a' ∧
    ['a', 'b'].getD 1 (Char.ofNat 0) = 'b' ∧
    Document.get_char_relative_to_cursor ⟨['a', 'b'], 0⟩ 1 ≠
      ['a', 'b'].getD 1 (Char.ofNat 0) := by
  decide

/-- C3, counterexample: the single-line document `"abc"` has
`lineCount() = 1` but its `lineStartIndexes()` table is `[0, 4]`, with 2
entries — the synthetic one-past-end entry is kept, so the table does not
have exactly `lineCount()` entries. -/
theorem c3_counterexample :
    (Document.mk "abc".toList 0).line_start_indexes = [0, 4] ∧
    (Document.mk "abc".toList 0).line_count = 1 ∧
    (Document.mk "abc".toList 0).line_start_indexes.length ≠
      (Document.mk "abc".toList 0).line_count := by
  decide

/-- C4: two panics refuting "every public query returns".  On the
single-line document `"abc"`, `translateRowColToIndex(1, 0)` clamps the
row to the table length (2 entries, synthetic entry kept) instead of
`lineCount - 1 = 0`, then panics looking up line 1; and on `"日 "`,
`leadingWhitespaceInCurrentLine()` slices the line at byte index 1,
inside the 3-byte scalar value `'日'`, and panics. -/
theorem c4_panics :
    (Document.mk "abc".toList 0).translate_row_col_to_index 1 0 = none ∧
    (Document.mk "日 ".toList 0).leading_whitespace_in_current_line = none := by
  decide

/-- C5: the formatter strips line breaks only while measuring widths and
then lays out the ORIGINAL entries, so with suggestions
`[("a\nb", ""), ("cccc", "")]` and `max = 100` the first formatted label
is `" a\nb  "`, which still contains `'\n'`. -/
theorem c5_line_break_leaks :
    format_suggestions [⟨"a\nb".toList, []⟩, ⟨"cccc".toList, []⟩] 100 =
      some ([⟨" a\nb  ".toList, []⟩, ⟨" cccc ".toList, []⟩], 6) ∧
    '\n' ∈ " a\nb  ".toList := by
  decide

/-- C6, counterexample: the state with 6 candidates, `windowSize = 3`,
`selectedIndex = -1` and `scrollOffset = 5` satisfies the claimed
invariant, but a single `next()` (with the candidate list unchanged)
produces `selectedIndex = 0`, `scrollOffset = 5`, which violates it. -/
theorem c6_counterexample :
    claimInvC6 ⟨-1, List.replicate 6 ⟨[], []⟩, 3, 5⟩ ∧
    ¬ claimInvC6 (CompletionManager.next (fun _ => List.replicate 6 ⟨[], []⟩)
      ⟨-1, List.replicate 6 ⟨[], []⟩, 3, 5⟩) := by
  decide

/-- C9, counterexample: on the document `"あ い"` with `cursorOffset = 3`,
`findStartOfPreviousWord()` returns 4 — the UTF-8 byte offset just after
the last space — while the count in scalar values (the claimed unit) is
2. -/
theorem c9_counterexample :
    Document.find_start_of_previous_word ⟨['あ', ' ', 'い'], 3⟩ = 4 ∧
    Document.find_start_of_previous_word_scalars ⟨['あ', ' ', 'い'], 3⟩ = 2 ∧
    Document.find_start_of_previous_word ⟨['あ', ' ', 'い'], 3⟩ ≠
      Document.find_start_of_previous_word_scalars ⟨['あ', ' ', 'い'], 3⟩ := by
  decide

theorem utf8Len_nil : utf8Len [] = 0 := rfl

theorem utf8Len_cons (c : Char) (l : List Char) :
    utf8Len (c :: l) = c.utf8Size + utf8Len l := by
  simp [utf8Len]

theorem utf8Len_append (a b : List Char) :
    utf8Len (a ++ b) = utf8Len a + utf8Len b := by
  simp [utf8Len]

theorem charLoop_eq (s : List Char) (count target : Int) :
    charLoop s count target =
      if count + 1 ≤ target ∧ target ≤ count + s.length then
        s.getD (target - count - 1).toNat (Char.ofNat 0)
      else Char.ofNat 0 := by
  induction s generalizing count with
  | nil =>
    have h : ¬(count + 1 ≤ target ∧ target ≤ count + ([] : List Char).length) := by
      simp only [List.length_nil]
      omega
    simp [charLoop, h]
  | cons c cs ih =>
    simp only [charLoop]
    by_cases h : count + 1 = target
    · have hc : count + 1 ≤ target ∧ target ≤ count + ((c :: cs) : List Char).length := by
        simp only [List.length_cons]
        omega
      have hidx : (target - count - 1).toNat = 0 := by omega
      rw [if_pos h, if_pos hc, hidx, List.getD_cons_zero]
    · rw [if_neg h, ih]
      by_cases h2 : count + 1 + 1 ≤ target ∧ target ≤ count + 1 + cs.length
      · have hc : count + 1 ≤ target ∧ target ≤ count + ((c :: cs) : List Char).length := by
          simp only [List.length_cons]
          omega
        rw [if_pos h2, if_pos hc]
        have hidx : (target - count - 1).toNat = (target - (count + 1) - 1).toNat + 1 := by
          omega
        rw [hidx, List.getD_cons_succ]
      · have hc : ¬(count + 1 ≤ target ∧ target ≤ count + ((c :: cs) : List Char).length) := by
          simp only [List.length_cons] at h2 ⊢
          omega
        rw [if_neg h2, if_neg hc]

/-- C2, amended: `charRelativeToCursor(offset)` returns the scalar value
at 0-based index `cursorOffset + offset - 1` of the text (the source
counts matches 1-based), and the NUL scalar value `char::default()` when
that index is out of range. -/
theorem c2_amended (d : Document) (offset : Int) :
    d.get_char_relative_to_cursor offset =
      if 1 ≤ d.cursor_position + offset ∧
          d.cursor_position + offset ≤ d.text.length then
        d.text.getD (d.cursor_position + offset - 1).toNat (Char.ofNat 0)
      else Char.ofNat 0 := by
  rw [Document.get_char_relative_to_cursor, charLoop_eq]
  norm_num

theorem rfindSpace_eq_none (l : List Char) : rfindSpace l = none ↔ ' ' ∉ l := by
  induction l with
  | nil => simp [rfindSpace]
  | cons c cs ih =>
    simp only [rfindSpace, List.mem_cons]
    cases h : rfindSpace cs with
    | some i =>
      have hmem : ' ' ∈ cs := by
        by_contra hm
        exact absurd (ih.mpr hm) (by simp [h])
      simp [hmem]
    | none =>
      have hn : ' ' ∉ cs := ih.mp h
      by_cases hc : c = ' '
      · simp [hc]
      · simp [hc, hn]
        exact fun hcc => hc hcc.symm

theorem rfindSpace_eq_some (l : List Char) (i : Nat) (h : rfindSpace l = some i) :
    ∃ a b, l = a ++ ' ' :: b ∧ ' ' ∉ b ∧ i = utf8Len a := by
  induction l generalizing i with
  | nil => simp [rfindSpace] at h
  | cons c cs ih =>
    simp only [rfindSpace] at h
    cases hcs : rfindSpace cs with
    | some j =>
      rw [hcs] at h
      simp only [Option.some.injEq] at h
      obtain ⟨a, b, hab, hb, hj⟩ := ih j hcs
      refine ⟨c :: a, b, by simp [hab], hb, ?_⟩
      rw [utf8Len_cons]
      omega
    | none =>
      rw [hcs] at h
      by_cases hc : c = ' '
      · rw [if_pos hc] at h
        simp only [Option.some.injEq] at h
        refine ⟨[], cs, by simp [hc], (rfindSpace_eq_none cs).mp hcs, ?_⟩
        rw [utf8Len_nil]
        omega
      · rw [if_neg hc] at h
        exact absurd h (by simp)

/-- C9, amended: `findStartOfPreviousWord()` returns the UTF-8 *byte*
offset just after the last plain space of `textBeforeCursor()` (one plus
the byte length of everything before that space), or 0 when there is no
space — bytes, not scalar values; the two units coincide on ASCII
text. -/
theorem c9_amended (d : Document) :
    (d.find_start_of_previous_word = 0 ∧ ' ' ∉ d.text_before_cursor) ∨
    (∃ a b, d.text_before_cursor = a ++ ' ' :: b ∧ ' ' ∉ b ∧
      d.find_start_of_previous_word = utf8Len a + 1) := by
  cases h : rfindSpace d.text_before_cursor with
  | none =>
    refine Or.inl ⟨?_, (rfindSpace_eq_none _).mp h⟩
    simp [Document.find_start_of_previous_word, h]
  | some i =>
    obtain ⟨a, b, hab, hb, hi⟩ := rfindSpace_eq_some _ i h
    refine Or.inr ⟨a, b, hab, hb, ?_⟩
    simp [Document.find_start_of_previous_word, h, hi]

/-- C6, amended: with `windowSize ≥ 1`, the invariant strengthened so
that an idle session also has `scrollOffset = 0` (either
`selectedIndex = -1` with `scrollOffset = 0`, or
`0 ≤ selectedIndex < candidateCount` with `scrollOffset ≥ 0` and
`scrollOffset ≤ selectedIndex ≤ scrollOffset + min(windowSize,
candidateCount) - 1`) is preserved by any single call to `previous()`,
`next()` or `reset()`, whatever the completion source answers. -/
theorem c6_amended (c : List Char → List Suggestion) (s : CompletionManager)
    (hw : 1 ≤ s.max) (h : sessionInv s) :
    sessionInv (s.previous c) ∧ sessionInv (s.next c) ∧ sessionInv (s.reset c) := by
  obtain ⟨sel, tmp, mx, vs⟩ := s
  simp only [sessionInv, CompletionManager.previous, CompletionManager.next,
    CompletionManager.update, CompletionManager.reset] at h ⊢
  refine ⟨?_, ?_, ?_⟩ <;> (try split_ifs) <;> (try dsimp only at *) <;> (try omega) <;> (try simp) <;> omega

/-- C6 witness: the amended invariant instantiated at a completing
session over one candidate with `windowSize = 3`. -/
theorem c6_amended_witness :
    sessionInv (CompletionManager.previous (fun _ => [])
      ⟨0, [⟨[], []⟩], 3, 0⟩) ∧
    sessionInv (CompletionManager.next (fun _ => [])
      ⟨0, [⟨[], []⟩], 3, 0⟩) ∧
    sessionInv (CompletionManager.reset (fun _ => [])
      ⟨0, [⟨[], []⟩], 3, 0⟩) :=
  c6_amended (fun _ => []) ⟨0, [⟨[], []⟩], 3, 0⟩ (by decide) (by decide)

theorem c10_step (c : List Char → List Suggestion) (s : CompletionManager)
    (op : CMOp) (hc : (c []).length ≤ s.max)
    (h0 : s.vertical_scroll = 0) (h1 : -1 ≤ s.selected)
    (h2 : s.selected < (s.tmp.length : Int)) (h3 : s.tmp.length ≤ s.max) :
    (applyOp c s op).max = s.max ∧ (applyOp c s op).vertical_scroll = 0 ∧
    -1 ≤ (applyOp c s op).selected ∧
    (applyOp c s op).selected < ((applyOp c s op).tmp.length : Int) ∧
    (applyOp c s op).tmp.length ≤ s.max := by
  obtain ⟨sel, tmp, mx, vs⟩ := s
  cases op <;>
    simp only [applyOp, CompletionManager.previous, CompletionManager.next,
      CompletionManager.update, CompletionManager.reset] at * <;>
    (try split_ifs) <;> (try dsimp only at *) <;> (try omega) <;> (try simp) <;> omega

theorem c10_aux (c : List Char → List Suggestion) :
    ∀ (ops : List CMOp) (s : CompletionManager),
      (c []).length ≤ s.max → s.vertical_scroll = 0 → -1 ≤ s.selected →
      s.selected < (s.tmp.length : Int) → s.tmp.length ≤ s.max →
      (applyOps c s ops).vertical_scroll = 0
  | [], _, _, h0, _, _, _ => h0
  | op :: ops, s, hc, h0, h1, h2, h3 => by
    obtain ⟨hm, g0, g1, g2, g3⟩ := c10_step c s op hc h0 h1 h2 h3
    exact c10_aux c ops (applyOp c s op) (hm ▸ hc) g0 g1 g2 (hm ▸ g3)

/-- C10: starting from the initial state (`selectedIndex = -1`,
`scrollOffset = 0`) with at most `windowSize` candidates, and a
completion source whose empty-context answer also has at most
`windowSize` candidates, `scrollOffset` is 0 after every sequence of
`next()` / `previous()` / `reset()` calls. -/
theorem c10_scroll_zero (c : List Char → List Suggestion)
    (s : CompletionManager) (ops : List CMOp)
    (hc : (c []).length ≤ s.max) (h0 : s.selected = -1)
    (h1 : s.vertical_scroll = 0) (h2 : s.tmp.length ≤ s.max) :
    (applyOps c s ops).vertical_scroll = 0 :=
  c10_aux c ops s hc h1 (by omega) (by omega) h2

/-- C10 witness: a concrete three-operation run over a session with
window size 3 and an empty candidate list. -/
theorem c10_scroll_zero_witness :
    (applyOps (fun _ => []) ⟨-1, [⟨[], []⟩], 3, 0⟩
      [CMOp.nextOp, CMOp.previousOp, CMOp.resetOp, CMOp.nextOp]).vertical_scroll = 0 :=
  c10_scroll_zero (fun _ => []) ⟨-1, [⟨[], []⟩], 3, 0⟩
    [CMOp.nextOp, CMOp.previousOp, CMOp.resetOp, CMOp.nextOp]
    (by decide) (by decide) (by decide) (by decide)

theorem splitLines_ne_nil (s : List Char) : splitLines s ≠ [] := by
  cases s with
  | nil => simp [splitLines]
  | cons c cs =>
    simp only [splitLines]
    split
    · simp
    · split <;> simp

theorem line_count_pos (d : Document) : 1 ≤ d.line_count :=
  List.length_pos.mpr (splitLines_ne_nil d.text)

theorem buildIndexes_length (pos : Nat) (ls : List Nat) :
    (buildIndexes pos ls).length = ls.length := by
  induction ls generalizing pos with
  | nil => rfl
  | cons l ls ih => simp [buildIndexes, ih]

theorem buildIndexes_getD (pos : Nat) (ls : List Nat) (i : Nat) (h : i < ls.length) :
    (buildIndexes pos ls).getD i 0 = pos + (ls.take (i + 1)).sum + (i + 1) := by
  induction ls generalizing pos i with
  | nil => simp at h
  | cons l ls ih =>
    cases i with
    | zero => simp [buildIndexes]
    | succ i =>
      simp only [buildIndexes, List.getD_cons_succ]
      rw [ih (pos + l + 1) i (by simpa using h)]
      simp only [List.take_succ_cons, List.sum_cons]
      omega

theorem lines_map_length (d : Document) :
    (d.lines.map utf8Len).length = d.line_count := by
  simp [Document.line_count]

theorem line_start_indexes_length (d : Document) :
    d.line_start_indexes.length =
      if 1 < d.line_count then d.line_count else d.line_count + 1 := by
  have hlen := lines_map_length d
  simp only [Document.line_start_indexes, gt_iff_lt]
  split_ifs with h
  · simp only [List.length_dropLast, List.length_cons, buildIndexes_length, hlen]
    omega
  · simp only [List.length_cons, buildIndexes_length, hlen]

theorem getD_dropLast (l : List Nat) (i : Nat) (h : i < l.length - 1) :
    l.dropLast.getD i 0 = l.getD i 0 := by
  have h1 : i < l.dropLast.length := by
    simp only [List.length_dropLast]; omega
  have h2 : i < l.length := by omega
  rw [List.getD_eq_getElem _ _ h1, List.getD_eq_getElem _ _ h2,
    List.getElem_dropLast]

theorem full_indexes_getD (ls : List Nat) (i : Nat) (h : i ≤ ls.length) :
    (0 :: buildIndexes 0 ls).getD i 0 = (ls.take i).sum + i := by
  cases i with
  | zero => rfl
  | succ i =>
    rw [List.getD_cons_succ, buildIndexes_getD 0 ls i (by omega)]
    omega

theorem line_start_indexes_getD (d : Document) (i : Nat)
    (h : i < d.line_start_indexes.length) :
    d.line_start_indexes.getD i 0 = ((d.lines.map utf8Len).take i).sum + i := by
  have hlen := line_start_indexes_length d
  have hmap := lines_map_length d
  rw [hlen] at h
  simp only [Document.line_start_indexes, gt_iff_lt]
  split_ifs with hlc
  · rw [if_pos hlc] at h
    rw [getD_dropLast _ i (by simp [buildIndexes_length, hmap]; omega)]
    exact full_indexes_getD _ i (by omega)
  · rw [if_neg hlc] at h
    have h1 := line_count_pos d
    exact full_indexes_getD _ i (by omega)

theorem sum_take_mono (l : List Nat) (i j : Nat) (h : i ≤ j) :
    (l.take i).sum ≤ (l.take j).sum := by
  conv_rhs => rw [← List.take_append_drop i (l.take j)]
  rw [List.sum_append, List.take_take, min_eq_left h]
  omega

theorem sum_take_succ_getD (l : List Nat) (i : Nat) (h : i < l.length) :
    (l.take (i + 1)).sum = (l.take i).sum + l.getD i 0 := by
  rw [List.take_succ, List.sum_append, List.getElem?_eq_getElem h,
    List.getD_eq_getElem _ _ h]
  simp

theorem line_start_indexes_sorted (d : Document) :
    List.Pairwise (· < ·) d.line_start_indexes := by
  rw [List.pairwise_iff_getElem]
  intro i j hi hj hij
  rw [← List.getD_eq_getElem _ 0 hi, ← List.getD_eq_getElem _ 0 hj,
    line_start_indexes_getD d i hi, line_start_indexes_getD d j hj]
  have := sum_take_mono (d.lines.map utf8Len) i j (by omega)
  omega

/-- C3, amended: for every document the `lineStartIndexes()` table is
strictly increasing and starts at 0, and it has exactly `lineCount()`
entries when `lineCount() > 1` but `lineCount() + 1` entries (the
synthetic one-past-end entry is kept) when the document is a single
line. -/
theorem c3_amended (d : Document) :
    List.Pairwise (· < ·) d.line_start_indexes ∧
    d.line_start_indexes.getD 0 0 = 0 ∧
    d.line_start_indexes.length =
      (if 1 < d.line_count then d.line_count else d.line_count + 1) := by
  refine ⟨line_start_indexes_sorted d, ?_, line_start_indexes_length d⟩
  have h1 := line_count_pos d
  have h0 : 0 < d.line_start_indexes.length := by
    rw [line_start_indexes_length d]
    split_ifs <;> omega
  rw [line_start_indexes_getD d 0 h0]
  simp

theorem takeWhile_length_le (p : Nat → Bool) (l : List Nat) :
    (l.takeWhile p).length ≤ l.length := by
  induction l with
  | nil => simp
  | cons a l ih =>
    rw [List.takeWhile_cons]
    split
    · simpa using ih
    · simp

theorem takeWhile_getD_sat (p : Nat → Bool) (l : List Nat) (i : Nat)
    (h : i < (l.takeWhile p).length) : p (l.getD i 0) = true := by
  induction l generalizing i with
  | nil => simp at h
  | cons a l ih =>
    rw [List.takeWhile_cons] at h
    by_cases hp : p a
    · rw [if_pos hp, List.length_cons] at h
      cases i with
      | zero => simpa using hp
      | succ i =>
        rw [List.getD_cons_succ]
        exact ih i (by omega)
    · rw [if_neg hp] at h
      simp at h

theorem takeWhile_getD_fail (p : Nat → Bool) (l : List Nat)
    (h : (l.takeWhile p).length < l.length) :
    p (l.getD (l.takeWhile p).length 0) = false := by
  induction l with
  | nil => simp at h
  | cons a l ih =>
    by_cases hp : p a
    · rw [List.takeWhile_cons_of_pos hp] at h ⊢
      simp only [List.length_cons] at h ⊢
      rw [List.getD_cons_succ]
      exact ih (by omega)
    · rw [List.takeWhile_cons_of_neg hp]
      simpa using hp

theorem takeWhile_length_eq (p : Nat → Bool) (l : List Nat) (k : Nat)
    (h1 : ∀ i, i < k → p (l.getD i 0) = true)
    (h2 : k = l.length ∨ (k < l.length ∧ p (l.getD k 0) = false)) :
    (l.takeWhile p).length = k := by
  induction l generalizing k with
  | nil =>
    simp only [List.takeWhile_nil, List.length_nil]
    rcases h2 with h2 | ⟨hk, _⟩
    · simp [h2]
    · simp at hk
  | cons a l ih =>
    cases k with
    | zero =>
      rcases h2 with h2 | ⟨_, hf⟩
      · simp at h2
      · rw [List.getD_cons_zero] at hf
        rw [List.takeWhile_cons_of_neg (by simp [hf])]
        rfl
    | succ k =>
      have ha : p a = true := by simpa using h1 0 (by omega)
      rw [List.takeWhile_cons_of_pos ha, List.length_cons]
      have h1x : ∀ i, i < k → p (l.getD i 0) = true := fun i hi => by
        have := h1 (i + 1) (by omega)
        rwa [List.getD_cons_succ] at this
      have h2x : k = l.length ∨ (k < l.length ∧ p (l.getD k 0) = false) := by
        rcases h2 with h2 | ⟨hk, hf⟩
        · left
          simpa using h2
        · right
          refine ⟨by simpa using hk, ?_⟩
          rwa [List.getD_cons_succ] at hf
      rw [ih k h1x h2x]

theorem line_start_indexes_two_le (d : Document) :
    2 ≤ d.line_start_indexes.length := by
  have h1 := line_count_pos d
  rw [line_start_indexes_length d]
  split_ifs <;> omega

/-- Shared facts about `find_line_start_index d v`: writing `k` for the
result of the bisection, `1 ≤ k ≤ length`, every entry strictly below `k`
is `≤ v`, and when `k` is not past the end the entry at `k` exceeds
`v`. -/
theorem bisectRight_spec (d : Document) (v : Nat) :
    1 ≤ bisectRight d.line_start_indexes v ∧
    bisectRight d.line_start_indexes v ≤ d.line_start_indexes.length ∧
    (∀ i, i < bisectRight d.line_start_indexes v →
      d.line_start_indexes.getD i 0 ≤ v) ∧
    (bisectRight d.line_start_indexes v < d.line_start_indexes.length →
      v < d.line_start_indexes.getD (bisectRight d.line_start_indexes v) 0) := by
  have h2 := line_start_indexes_two_le d
  have h0 : d.line_start_indexes.getD 0 0 = 0 := by
    rw [line_start_indexes_getD d 0 (by omega)]
    simp
  have hle := takeWhile_length_le (fun probe => probe ≤ v) d.line_start_indexes
  have hk1 : 1 ≤ bisectRight d.line_start_indexes v := by
    by_contra hc
    have hz : bisectRight d.line_start_indexes v = 0 := by omega
    have := takeWhile_getD_fail (fun probe => probe ≤ v) d.line_start_indexes
      (by unfold bisectRight at hz; omega)
    rw [← bisectRight, hz, h0] at this
    simp at this
  refine ⟨hk1, hle, ?_, ?_⟩
  · intro i hi
    have := takeWhile_getD_sat (fun probe => probe ≤ v) d.line_start_indexes i hi
    simpa using this
  · intro hlt
    have := takeWhile_getD_fail (fun probe => probe ≤ v) d.line_start_indexes hlt
    simpa using this

/-- C7: for every offset in `[0, length(text)]`, `findLineStartIndex`
returns a row `r` inside the table together with the table entry at `r`,
where `lineStartIndexes()[r] <= offset` and either `r` is the final row
or `offset < lineStartIndexes()[r+1]` — i.e. `r` is the rightmost index
whose entry is `<= offset` (the table being strictly increasing). -/
theorem c7_find_line_start_index (d : Document) (offset : Nat)
    (h : offset ≤ utf8Len d.text) :
    (d.find_line_start_index offset).1 < d.line_start_indexes.length ∧
    (d.find_line_start_index offset).2 =
      d.line_start_indexes.getD (d.find_line_start_index offset).1 0 ∧
    d.line_start_indexes.getD (d.find_line_start_index offset).1 0 ≤ offset ∧
    ((d.find_line_start_index offset).1 = d.line_start_indexes.length - 1 ∨
      offset <
        d.line_start_indexes.getD ((d.find_line_start_index offset).1 + 1) 0) := by
  obtain ⟨hk1, hkle, hsat, hfail⟩ := bisectRight_spec d offset
  have hfst : (d.find_line_start_index offset).1 =
      bisectRight d.line_start_indexes offset - 1 := rfl
  have hsnd : (d.find_line_start_index offset).2 =
      d.line_start_indexes.getD (bisectRight d.line_start_indexes offset - 1) 0 := rfl
  refine ⟨by omega, by rw [hsnd, hfst], ?_, ?_⟩
  · rw [hfst]
    exact hsat _ (by omega)
  · rw [hfst]
    by_cases hend : bisectRight d.line_start_indexes offset =
        d.line_start_indexes.length
    · left
      omega
    · right
      have hlt := hfail (by omega)
      have : bisectRight d.line_start_indexes offset - 1 + 1 =
          bisectRight d.line_start_indexes offset := by omega
      rw [this]
      exact hlt

/-- C7 witness: the property instantiated on the document `"a\nb"` at
offset 2 (the start of the second line). -/
theorem c7_find_line_start_index_witness :
    ((Document.mk "a\nb".toList 0).find_line_start_index 2).1 <
      (Document.mk "a\nb".toList 0).line_start_indexes.length ∧
    ((Document.mk "a\nb".toList 0).find_line_start_index 2).2 =
      (Document.mk "a\nb".toList 0).line_start_indexes.getD
        ((Document.mk "a\nb".toList 0).find_line_start_index 2).1 0 ∧
    (Document.mk "a\nb".toList 0).line_start_indexes.getD
        ((Document.mk "a\nb".toList 0).find_line_start_index 2).1 0 ≤ 2 ∧
    (((Document.mk "a\nb".toList 0).find_line_start_index 2).1 =
        (Document.mk "a\nb".toList 0).line_start_indexes.length - 1 ∨
      2 < (Document.mk "a\nb".toList 0).line_start_indexes.getD
        (((Document.mk "a\nb".toList 0).find_line_start_index 2).1 + 1) 0) :=
  c7_find_line_start_index (Document.mk "a\nb".toList 0) 2 (by decide)

theorem utf8Len_splitLines (s : List Char) :
    utf8Len s + 1 = ((splitLines s).map utf8Len).sum + (splitLines s).length := by
  induction s with
  | nil => rfl
  | cons c cs ih =>
    by_cases h : c = '\n'
    · subst h
      have hstep : splitLines ('\n' :: cs) = [] :: splitLines cs := by
        simp [splitLines]
      rw [utf8Len_cons, hstep]
      simp only [List.map_cons, List.sum_cons, List.length_cons, utf8Len_nil]
      have hsz : ('\n').utf8Size = 1 := rfl
      omega
    · cases hsp : splitLines cs with
      | nil => exact absurd hsp (splitLines_ne_nil cs)
      | cons l ls =>
        have hstep : splitLines (c :: cs) = (c :: l) :: ls := by
          simp only [splitLines, if_neg h, hsp]
        rw [utf8Len_cons, hstep]
        rw [hsp] at ih
        simp only [List.map_cons, List.sum_cons, List.length_cons,
          utf8Len_cons] at ih ⊢
        omega

theorem utf8Len_text (d : Document) :
    utf8Len d.text + 1 = (d.lines.map utf8Len).sum + d.line_count :=
  utf8Len_splitLines d.text

theorem getD_map_utf8Len (L : List (List Char)) (i : Nat) (h : i < L.length) :
    (L.map utf8Len).getD i 0 = utf8Len (L.getD i []) := by
  rw [List.getD_eq_getElem _ _ (by simpa using h), List.getD_eq_getElem _ _ h,
    List.getElem_map]

/-- C8: for every row below `lineCount` and every column no longer than
that row's line (in the code's byte unit), `translateRowColToIndex(row,
col)` returns (without panicking) the table entry of the row plus the
column, and `translateIndexToPosition` maps that index back to exactly
`(row, col)`. -/
theorem c8_round_trip (d : Document) (row col : Nat)
    (h1 : row < d.line_count)
    (h2 : col ≤ utf8Len (d.lines.getD row [])) :
    d.translate_row_col_to_index row col =
      some (d.line_start_indexes.getD row 0 + col) ∧
    d.translate_index_to_position (d.line_start_indexes.getD row 0 + col) =
      (row, col) := by
  have hlen := line_start_indexes_length d
  have hmap := lines_map_length d
  have htwo := line_start_indexes_two_le d
  have hrowt : row < d.line_start_indexes.length := by
    rw [hlen]
    split_ifs <;> omega
  have hgetrow := line_start_indexes_getD d row hrowt
  have hlensrow : row < (d.lines.map utf8Len).length := by omega
  have hsucc := sum_take_succ_getD (d.lines.map utf8Len) row hlensrow
  have hmaprow := getD_map_utf8Len d.lines row h1
  have htext := utf8Len_text d
  have hsum_all :
      ((d.lines.map utf8Len).take (row + 1)).sum ≤ (d.lines.map utf8Len).sum := by
    have := sum_take_mono (d.lines.map utf8Len) (row + 1)
      (d.lines.map utf8Len).length (by omega)
    rwa [List.take_length] at this
  have hidx_le : d.line_start_indexes.getD row 0 + col ≤ utf8Len d.text := by
    omega
  constructor
  · have hmin : min row (d.line_start_indexes.length - 1) = row := by omega
    have hget : d.lines.get? row = some (d.lines.getD row []) := by
      rw [List.get?_eq_getElem?, List.getElem?_eq_getElem h1,
        List.getD_eq_getElem _ _ h1]
    simp only [Document.translate_row_col_to_index, hmin, hget]
    split_ifs with hb hc
    · exact absurd hc (by omega)
    · simp only [Option.some.injEq]
      omega
    · push_neg at hb
      obtain ⟨hb0, -⟩ := hb
      simp only [Option.some.injEq]
      omega
  · have hk : bisectRight d.line_start_indexes
        (d.line_start_indexes.getD row 0 + col) = row + 1 := by
      unfold bisectRight
      apply takeWhile_length_eq
      · intro i hi
        have hit : i < d.line_start_indexes.length := by omega
        have hgi := line_start_indexes_getD d i hit
        have hmono := sum_take_mono (d.lines.map utf8Len) i row (by omega)
        simp only [decide_eq_true_eq]
        omega
      · by_cases hend : row + 1 = d.line_start_indexes.length
        · left
          omega
        · right
          refine ⟨by omega, ?_⟩
          have hgr1 := line_start_indexes_getD d (row + 1) (by omega)
          simp only [decide_eq_false_iff_not]
          omega
    simp only [Document.translate_index_to_position,
      Document.find_line_start_index, hk, Nat.add_sub_cancel]
    rw [Prod.mk.injEq]
    exact ⟨rfl, by omega⟩

/-- C8 witness: the round trip instantiated on the document `"ab\ncd"` at
row 1, column 2 (the end of the second line). -/
theorem c8_round_trip_witness :
    (Document.mk "ab\ncd".toList 0).translate_row_col_to_index 1 2 =
      some ((Document.mk "ab\ncd".toList 0).line_start_indexes.getD 1 0 + 2) ∧
    (Document.mk "ab\ncd".toList 0).translate_index_to_position
        ((Document.mk "ab\ncd".toList 0).line_start_indexes.getD 1 0 + 2) =
      (1, 2) :=
  c8_round_trip (Document.mk "ab\ncd".toList 0) 1 2 (by decide) (by decide)

end RustyPrompt
